import Mathlib

/-!
Verification of the red-black tree (src/Python/red_black_tree.py) and the heap
sort routine (src/Python/heap_sort.py).

The Python red-black tree is a pointer structure: every node holds `data`,
`color`, `parent`, `left`, `right`, and a single shared sentinel `NIL`
(colored BLACK, with `left`/`right` slots equal to `None`) stands for every
absent child and for the parent of the root.  We embed it shallowly as an
inductive tree: `Tree.nil` is the sentinel, and a "current node together with
its parent pointers" — the state that `_fix_insert` walks on — is embedded as
a subtree paired with a context (the list of ancestor frames read off the
parent chain, innermost first).  `plug` rebuilds the whole tree from such a
pair.  Code paths on which the Python program would dereference `None`
(reading a child of the sentinel and then accessing `.color` on it) are
embedded as `Option.none` results.
-/

set_option linter.unusedVariables false
set_option linter.unusedSectionVars false

namespace RBT

/-- Colors of red-black tree nodes, as in the Python `Color` enum. -/
inductive Color where
  | red : Color
  | black : Color
deriving DecidableEq, Repr

/-- The tree shape: `nil` is the shared sentinel `NIL`; a `node` carries the
color, the left child, the key (`data` in the source) and the right child. -/
inductive Tree (α : Type) where
  | nil : Tree α
  | node (c : Color) (l : Tree α) (k : α) (r : Tree α) : Tree α
deriving DecidableEq, Repr

variable {α : Type} [LinearOrder α]

/-- Color of the root of a subtree; the sentinel is BLACK (invariant I1,
established in `RedBlackTree.__init__`). -/
def rootColor : Tree α → Color
  | .nil => .black
  | .node c _ _ _ => c

/-- Which child of its parent a node is. -/
inductive Dir where
  | left : Dir
  | right : Dir
deriving DecidableEq, Repr

/-- One ancestor frame of the zipper: the current subtree sits in the `dir`
child slot of a node with color `c` and key `k` whose other child is `sib`. -/
structure Frame (α : Type) where
  dir : Dir
  c : Color
  k : α
  sib : Tree α
deriving DecidableEq, Repr

/-- The parent chain of the current node, innermost ancestor first. -/
abbrev Ctx (α : Type) := List (Frame α)

/-- Rebuild the node one level up from the current subtree and its frame. -/
def fill (f : Frame α) (t : Tree α) : Tree α :=
  match f.dir with
  | .left => .node f.c t f.k f.sib
  | .right => .node f.c f.sib f.k t

/-- Rebuild the whole tree from a subtree and its ancestor context. -/
def plug : Tree α → Ctx α → Tree α
  | t, [] => t
  | t, f :: rest => plug (fill f t) rest

/-- Assignment `node.color = Color.BLACK` on the root of a subtree.  On the
sentinel it is a no-op, exactly as in Python where the sentinel is already
BLACK and stays so. -/
def setBlack : Tree α → Tree α
  | .nil => .nil
  | .node _ l k r => .node .black l k r

/-- The `_left_rotate(x)` pointer surgery, acting on the subtree rooted at
`x`.  The parent reattachment in the source is the identity of the
surrounding context here.  When `x.right` is the sentinel the Python code
reads `NIL.left` (which is `None`) and then assigns `.parent` on it, crashing:
that case is `none`. -/
def left_rotate : Tree α → Option (Tree α)
  | .node cx a kx (.node cy b ky c) => some (.node cy (.node cx a kx b) ky c)
  | _ => none

/-- The `_right_rotate(x)` pointer surgery, mirror image of `left_rotate`. -/
def right_rotate : Tree α → Option (Tree α)
  | .node cx (.node cy a ky b) kx c => some (.node cy a ky (.node cx b kx c))
  | _ => none

/-- The BST descent loop of `insert` (lines 44-55): walk down from the root
comparing with `<`, going left on strictly-less and right otherwise, and
record the parent chain of the sentinel position reached. -/
def descend (k : α) : Tree α → Ctx α → Ctx α
  | .nil, acc => acc
  | .node c l key r, acc =>
    if k < key then descend k l (⟨.left, c, key, r⟩ :: acc)
    else descend k r (⟨.right, c, key, l⟩ :: acc)

/-- The `_fix_insert` loop.  The first argument is the subtree rooted at the
current `node`, the second its parent chain.  Each equation mirrors one pass
through the loop body:

* context empty: `node.parent` is the sentinel (BLACK), the loop exits and
  `self.root.color = Color.BLACK` runs;
* parent frame BLACK: the loop exits, root forced BLACK;
* parent RED and no grandparent frame: `node.parent.parent` is the sentinel,
  whose `left` slot is `None`; the comparison with `None` is false, so the
  code takes the `else` branch, sets `uncle = None` and crashes reading
  `uncle.color` — embedded as `none`;
* parent RED, uncle (`gf.sib`) RED: Case 1 recoloring, loop continues from
  the grandparent;
* parent RED, uncle BLACK: Case 2 (rotation at the parent when the current
  node is the inner child) followed by Case 3 (recolor parent BLACK and
  grandparent RED, rotate at the grandparent).  The new parent of the
  current node is BLACK, so the loop exits and the root is forced BLACK. -/
def fix_insert : Tree α → Ctx α → Option (Tree α)
  | t, [] => some (setBlack t)
  | t, pf :: rest =>
    if pf.c = .red then
      match rest with
      | [] => none
      | gf :: rest' =>
        if rootColor gf.sib = .red then
          fix_insert (fill ⟨gf.dir, .red, gf.k, setBlack gf.sib⟩ (setBlack (fill pf t))) rest'
        else
          match gf.dir with
          | .left =>
            match
              (match pf.dir with
               | .right => left_rotate (fill pf t)
               | .left => some (fill pf t)) with
            | none => none
            | some p =>
              match right_rotate (.node .red (setBlack p) gf.k gf.sib) with
              | none => none
              | some g => some (setBlack (plug g rest'))
          | .right =>
            match
              (match pf.dir with
               | .left => right_rotate (fill pf t)
               | .right => some (fill pf t)) with
            | none => none
            | some p =>
              match left_rotate (.node .red gf.sib gf.k (setBlack p)) with
              | none => none
              | some g => some (setBlack (plug g rest'))
    else some (setBlack (plug t (pf :: rest)))

/-- The public `insert(data)`: allocate one RED node with both children equal
to the sentinel, attach it at the position found by the BST descent, and run
the fixup walk from it. -/
def insert (t : Tree α) (k : α) : Option (Tree α) :=
  fix_insert (.node .red .nil k .nil) (descend k t [])

/-- A sequence of `insert` calls starting from a given tree. -/
def insertAll : Tree α → List α → Option (Tree α)
  | t, [] => some t
  | t, k :: ks =>
    match insert t k with
    | some u => insertAll u ks
    | none => none

/-- The recursive body `_search_helper(node, data)`: return the node on an
equal key, descend left on strictly-less, right otherwise, and return the
sentinel on a miss. -/
def search (t : Tree α) (k : α) : Tree α :=
  match t with
  | .nil => .nil
  | .node c l key r =>
    if k = key then .node c l key r
    else if k < key then search l k
    else search r k

/-- The `inorder_traversal` walk, with `_inorder_helper` appending
`(node.data, node.color)` between the two recursive calls. -/
def inorder_traversal : Tree α → List (α × Color)
  | .nil => []
  | .node c l k r => inorder_traversal l ++ (k, c) :: inorder_traversal r

/-- Keys of the inorder traversal, in traversal order. -/
def keysOf (t : Tree α) : List α :=
  (inorder_traversal t).map Prod.fst

/-- The contribution of a color to a black count: `1 if BLACK else 0`
(the `add_black` expression in `get_black_height`). -/
def addBlack : Color → Nat
  | .red => 0
  | .black => 1

/-- The `get_black_height(node)` computation: zero on the sentinel, and
`max(left, right) + add_black` on a node. -/
def get_black_height : Tree α → Nat
  | .nil => 0
  | .node c l _ r => max (get_black_height l) (get_black_height r) + addBlack c

/-- The nested `validate_helper(node, black_count, expected_black_count)`:
reject an adjacent RED pair, accumulate the BLACK count down every path and
compare it with the expected count at each sentinel. -/
def validate_helper : Tree α → Nat → Nat → Bool
  | .nil, b, e => b == e
  | .node c l _ r, b, e =>
    if c = .red ∧ (rootColor l = .red ∨ rootColor r = .red) then false
    else validate_helper l (b + addBlack c) e && validate_helper r (b + addBlack c) e

/-- The public `validate_rb_properties()`: empty tree is valid; otherwise the
root must be BLACK and the recursive descent must succeed against the
expected count `get_black_height(root)`. -/
def validate_rb_properties (t : Tree α) : Bool :=
  match t with
  | .nil => true
  | .node c l k r =>
    if c ≠ .black then false
    else validate_helper (.node c l k r) 0 (get_black_height (.node c l k r))

/-- Invariant I3: no RED node has a RED child (the sentinel counts as
BLACK). -/
def NoRR : Tree α → Prop
  | .nil => True
  | .node c l _ r =>
    (c = .red → rootColor l = .black ∧ rootColor r = .black) ∧ NoRR l ∧ NoRR r

instance decNoRR : ∀ t : Tree α, Decidable (NoRR t)
  | .nil => isTrue trivial
  | .node c l _ r =>
    have hl : Decidable (NoRR l) := decNoRR l
    have hr : Decidable (NoRR r) := decNoRR r
    inferInstanceAs
      (Decidable ((c = .red → rootColor l = .black ∧ rootColor r = .black) ∧ NoRR l ∧ NoRR r))

/-- Invariant I4 in well-founded form: `IsBH t n` states that every path from
the root of `t` to a sentinel passes through exactly `n` BLACK non-sentinel
nodes (counting the root of `t` itself when it is BLACK). -/
inductive IsBH : Tree α → Nat → Prop where
  | nil : IsBH .nil 0
  | node {l r : Tree α} {n : Nat} {c : Color} {k : α} :
      IsBH l n → IsBH r n → IsBH (.node c l k r) (n + addBlack c)

/-- The list of per-path BLACK counts of a subtree: one entry for each
root-to-sentinel path, counting BLACK non-sentinel nodes on it including the
root of the subtree. -/
def pathCounts : Tree α → List Nat
  | .nil => [0]
  | .node c l _ r => (pathCounts l ++ pathCounts r).map (· + addBlack c)

/-- All red-black invariants of a whole tree: BLACK root (I2; the sentinel of
an empty tree is BLACK), no adjacent REDs (I3) and a uniform black height
(I4).  I1 is structural in this embedding. -/
def ValidRB (t : Tree α) : Prop :=
  rootColor t = .black ∧ NoRR t ∧ ∃ n, IsBH t n

/-- Black-height bookkeeping for a context: if the hole content has uniform
black count `n`, the rebuilt tree has uniform black count `m`.  Each frame
requires its sibling subtree to match the count at that level. -/
inductive CtxBH : Ctx α → Nat → Nat → Prop where
  | nil {n : Nat} : CtxBH [] n n
  | cons {f : Frame α} {rest : Ctx α} {n m : Nat} :
      IsBH f.sib n → CtxBH rest (n + addBlack f.c) m → CtxBH (f :: rest) n m

/-- Local well-formedness of one ancestor frame: its sibling subtree has no
adjacent REDs, and a RED frame has a BLACK-rooted sibling. -/
def frameOK (f : Frame α) : Prop :=
  NoRR f.sib ∧ (f.c = .red → rootColor f.sib = .black)

/-- Well-formedness of a whole context: every frame is `frameOK`, a RED frame
has a BLACK parent frame, and the outermost frame (the root of the whole
tree) is BLACK. -/
def ctxOK : Ctx α → Prop
  | [] => True
  | [f] => frameOK f ∧ f.c = .black
  | f :: g :: rest => frameOK f ∧ (g.c = .red → f.c = .black) ∧ ctxOK (g :: rest)

/-- Weak BST ordering: at every node, all keys of the left subtree are `≤`
the key and all keys of the right subtree are `≥` the key.  This is the
ordering invariant the source maintains (duplicates are routed right on
insertion, and rotations can move an equal key into a left subtree, so the
left-side bound cannot be strict). -/
def Ordered : Tree α → Prop
  | .nil => True
  | .node _ l k r =>
    Ordered l ∧ Ordered r ∧ (∀ x ∈ keysOf l, x ≤ k) ∧ (∀ x ∈ keysOf r, k ≤ x)

/-- The tree produced by the descent phase of `insert` alone, before fixup:
replace the sentinel reached by the BST descent (strictly-less goes left,
equal-or-greater goes right) with the subtree `s`. -/
def insertAt : Tree α → α → Tree α → Tree α
  | .nil, _, s => s
  | .node c l key r, k, s =>
    if k < key then .node c (insertAt l k s) key r
    else .node c l key (insertAt r k s)

/-- Subtree occurrence test, i.e. whether `s` is one of the nodes of `t`
(including `t` itself and sentinels). -/
def isSubtree (s : Tree α) : Tree α → Bool
  | .nil => decide (s = .nil)
  | .node c l k r => decide (s = .node c l k r) || isSubtree s l || isSubtree s r

/-- Here `pathBlacksIncl` and `pathBlacksExcl` follow the words of the spec
glossary rather than the code, to be compared with `get_black_height`: the
glossary defines black-height as the number of BLACK nodes on any path from a
given node to a descendant sentinel, excluding the starting node.  The
terminal sentinel lies on such a path and is BLACK by invariant I1, so it
contributes one to each count.  `pathBlacksIncl t` lists the BLACK counts of
all paths including the starting node, `pathBlacksExcl t` the counts
excluding it. -/
def pathBlacksIncl : Tree α → List Nat
  | .nil => [1]
  | .node c l _ r => (pathBlacksIncl l ++ pathBlacksIncl r).map (· + addBlack c)

/-- Companion of `pathBlacksIncl`: per-path BLACK counts from a node,
excluding the node itself. -/
def pathBlacksExcl : Tree α → List Nat
  | .nil => []
  | .node _ l _ r => pathBlacksIncl l ++ pathBlacksIncl r

end RBT

namespace HeapSort

variable {α : Type} [LinearOrder α] [Inhabited α]

/-- The simultaneous assignment `arr[i], arr[j] = arr[j], arr[i]` from
heap_sort.py: both reads happen before the writes. -/
def swapL (arr : List α) (i j : Nat) : List α :=
  (arr.set i (arr.getD j default)).set j (arr.getD i default)

/-- The index `largest` computed by the two guard tests at the top of
`heapify(arr, n, i)`: start from `i`, move to the left child `2*i+1` when it
exists inside the heap prefix and is strictly greater, then likewise compare
the current `largest` with the right child `2*i+2`. -/
def heapifyStep (arr : List α) (n i : Nat) : Nat :=
  if 2 * i + 1 < n ∧ arr.getD i default < arr.getD (2 * i + 1) default then
    if 2 * i + 2 < n ∧ arr.getD (2 * i + 1) default < arr.getD (2 * i + 2) default then
      2 * i + 2
    else 2 * i + 1
  else
    if 2 * i + 2 < n ∧ arr.getD i default < arr.getD (2 * i + 2) default then
      2 * i + 2
    else i

/-- The recursive `heapify(arr, n, i)`: if `largest` moved off `i`, swap the
two entries and continue sifting down from `largest`. -/
def heapify (arr : List α) (n i : Nat) : List α :=
  if h : heapifyStep arr n i = i then arr
  else heapify (swapL arr i (heapifyStep arr n i)) n (heapifyStep arr n i)
termination_by n - i
decreasing_by
  have hb : i < heapifyStep arr n i ∧ heapifyStep arr n i < n := by
    unfold heapifyStep at h ⊢
    split_ifs at h ⊢ with h1 h2 h3
    · exact ⟨by omega, h2.1⟩
    · exact ⟨by omega, h1.1⟩
    · exact ⟨by omega, h3.1⟩
    · exact absurd rfl h
  omega

/-- The first loop of `heap_sort`: `for i in range(n//2 - 1, -1, -1)` calls
`heapify(arr, n, i)`.  `buildLoop arr n j` runs the iterations with
`i = j-1, j-2, ..., 0`; the loop itself is `buildLoop arr n (n / 2)`. -/
def buildLoop (arr : List α) (n : Nat) : Nat → List α
  | 0 => arr
  | j + 1 => buildLoop (heapify arr n j) n j

/-- The second loop of `heap_sort`: `for i in range(n-1, 0, -1)` swaps
`arr[0]` with `arr[i]` and calls `heapify(arr, i, 0)`.  `extractLoop arr i`
runs the iterations with the index going `i, i-1, ..., 1`. -/
def extractLoop (arr : List α) : Nat → List α
  | 0 => arr
  | i + 1 => extractLoop (heapify (swapL arr 0 (i + 1)) (i + 1) 0) i

/-- The public `heap_sort(arr)`: build a max-heap over the whole list, then
repeatedly move the root behind the shrinking heap prefix. -/
def heap_sort (arr : List α) : List α :=
  extractLoop (buildLoop arr arr.length (arr.length / 2)) (arr.length - 1)

/-- The local max-heap condition at index `k` within the heap prefix of
length `n`: a child inside the prefix is not greater than its parent. -/
def localOK (arr : List α) (n k : Nat) : Prop :=
  (2 * k + 1 < n → arr.getD (2 * k + 1) default ≤ arr.getD k default) ∧
  (2 * k + 2 < n → arr.getD (2 * k + 2) default ≤ arr.getD k default)

end HeapSort

namespace RBT

variable {α : Type} [LinearOrder α]

/-! Basic lemmas about the structural helpers. -/

@[simp]
theorem keysOf_nil : keysOf (.nil : Tree α) = [] := rfl

@[simp]
theorem keysOf_node (c : Color) (l : Tree α) (k : α) (r : Tree α) :
    keysOf (.node c l k r) = keysOf l ++ k :: keysOf r := by
  simp [keysOf, inorder_traversal]

@[simp]
theorem rootColor_setBlack (t : Tree α) : rootColor (setBlack t) = .black := by
  cases t <;> rfl

@[simp]
theorem keysOf_setBlack (t : Tree α) : keysOf (setBlack t) = keysOf t := by
  cases t <;> simp [setBlack]

theorem NoRR_setBlack {t : Tree α} (h : NoRR t) : NoRR (setBlack t) := by
  cases t with
  | nil => trivial
  | node c l k r =>
    obtain ⟨-, hl, hr⟩ := h
    exact ⟨by simp, hl, hr⟩

theorem IsBH_nil_inv {n : Nat} (h : IsBH (.nil : Tree α) n) : n = 0 := by
  cases h; rfl

theorem IsBH_node_inv {c : Color} {l r : Tree α} {k : α} {n : Nat}
    (h : IsBH (.node c l k r) n) :
    ∃ m, IsBH l m ∧ IsBH r m ∧ n = m + addBlack c := by
  cases h with
  | node hl hr => exact ⟨_, hl, hr, rfl⟩

theorem IsBH_setBlack {t : Tree α} {n : Nat} (h : IsBH t n) :
    ∃ m, IsBH (setBlack t) m := by
  cases t with
  | nil => exact ⟨0, IsBH.nil⟩
  | node c l k r =>
    obtain ⟨m, hl, hr, -⟩ := IsBH_node_inv h
    exact ⟨m + 1, IsBH.node hl hr⟩

theorem IsBH_setBlack_of_red {t : Tree α} {n : Nat} (hc : rootColor t = .red)
    (h : IsBH t n) : IsBH (setBlack t) (n + 1) := by
  cases t with
  | nil => simp [rootColor] at hc
  | node c l k r =>
    obtain ⟨m, hl, hr, hn⟩ := IsBH_node_inv h
    have : c = .red := hc
    subst this
    simpa [hn, addBlack] using IsBH.node (c := .black) (k := k) hl hr

@[simp]
theorem rootColor_fill (f : Frame α) (t : Tree α) : rootColor (fill f t) = f.c := by
  cases f with
  | mk dir c k sib => cases dir <;> rfl

theorem IsBH_fill {f : Frame α} {t : Tree α} {n : Nat}
    (ht : IsBH t n) (hs : IsBH f.sib n) : IsBH (fill f t) (n + addBlack f.c) := by
  cases f with
  | mk dir c k sib => cases dir <;> exact IsBH.node (by assumption) (by assumption)

theorem NoRR_fill {f : Frame α} {t : Tree α} (ht : NoRR t) (hf : frameOK f)
    (hc : f.c = .red → rootColor t = .black) : NoRR (fill f t) := by
  obtain ⟨hsib, hred⟩ := hf
  cases f with
  | mk dir c k sib =>
    cases dir <;>
      exact ⟨fun h => by exact ⟨by simp_all, by simp_all⟩, by simp_all [NoRR], by simp_all [NoRR]⟩

theorem keysOf_fill (f : Frame α) (t : Tree α) :
    keysOf (fill f t) =
      match f.dir with
      | .left => keysOf t ++ f.k :: keysOf f.sib
      | .right => keysOf f.sib ++ f.k :: keysOf t := by
  cases f with
  | mk dir c k sib => cases dir <;> simp [fill]

theorem keysOf_fill_congr {a b : Tree α} (f : Frame α) (h : keysOf a = keysOf b) :
    keysOf (fill f a) = keysOf (fill f b) := by
  cases f with
  | mk dir c k sib => cases dir <;> simp [fill, h]

@[simp]
theorem plug_nil (t : Tree α) : plug t [] = t := rfl

@[simp]
theorem plug_cons (t : Tree α) (f : Frame α) (rest : Ctx α) :
    plug t (f :: rest) = plug (fill f t) rest := rfl

theorem keysOf_plug_congr {a b : Tree α} (ctx : Ctx α) (h : keysOf a = keysOf b) :
    keysOf (plug a ctx) = keysOf (plug b ctx) := by
  induction ctx generalizing a b with
  | nil => simpa using h
  | cons f rest ih => exact ih (keysOf_fill_congr f h)

theorem IsBH_plug {t : Tree α} {ctx : Ctx α} {n m : Nat}
    (ht : IsBH t n) (hc : CtxBH ctx n m) : IsBH (plug t ctx) m := by
  induction hc generalizing t with
  | nil => simpa using ht
  | cons hsib _ ih => exact ih (IsBH_fill ht hsib)

theorem ctxOK_tail {f : Frame α} {rest : Ctx α} (h : ctxOK (f :: rest)) : ctxOK rest := by
  cases rest with
  | nil => trivial
  | cons g rest' => exact h.2.2

theorem ctxOK_cons_frameOK {f : Frame α} {rest : Ctx α} (h : ctxOK (f :: rest)) : frameOK f := by
  cases rest with
  | nil => exact h.1
  | cons g rest' => exact h.1

theorem NoRR_plug {t : Tree α} {ctx : Ctx α} (ht : NoRR t) (hc : ctxOK ctx)
    (hd : ∀ f ∈ ctx.head?, f.c = .red → rootColor t = .black) :
    NoRR (plug t ctx) := by
  induction ctx generalizing t with
  | nil => simpa using ht
  | cons f rest ih =>
    refine ih (NoRR_fill ht (ctxOK_cons_frameOK hc) ?_) (ctxOK_tail hc) ?_
    · exact fun hr => hd f (by simp) hr
    · intro g hg hgr
      cases rest with
      | nil => simp at hg
      | cons g' rest' =>
        simp only [List.head?_cons, Option.mem_def, Option.some.injEq] at hg
        subst hg
        rw [rootColor_fill]
        exact hc.2.1 hgr

/-! Correctness of the validator: `validate_rb_properties` decides exactly
the conjunction of the red-black invariants. -/

theorem pathCounts_length_pos (t : Tree α) : 0 < (pathCounts t).length := by
  cases t with
  | nil => simp [pathCounts]
  | node c l k r =>
    have := pathCounts_length_pos l
    simp only [pathCounts, List.length_map, List.length_append]
    omega

theorem pathCounts_ne_nil (t : Tree α) : pathCounts t ≠ [] :=
  List.length_pos.mp (pathCounts_length_pos t)

theorem IsBH_iff_pathCounts {t : Tree α} {n : Nat} :
    IsBH t n ↔ ∀ p ∈ pathCounts t, p = n := by
  induction t generalizing n with
  | nil =>
    constructor
    · intro h
      cases h
      simp [pathCounts]
    · intro h
      have h0 := h 0 (by simp [pathCounts])
      subst h0
      exact IsBH.nil
  | node c l k r ihl ihr =>
    constructor
    · intro h
      obtain ⟨m, hl, hr, hn⟩ := IsBH_node_inv h
      subst hn
      simp only [pathCounts, List.mem_map, List.mem_append]
      rintro p ⟨q, hq | hq, rfl⟩
      · rw [ihl.mp hl q hq]
      · rw [ihr.mp hr q hq]
    · intro h
      simp only [pathCounts, List.mem_map, List.mem_append] at h
      obtain ⟨q0, hq0⟩ := List.exists_mem_of_ne_nil _ (pathCounts_ne_nil l)
      have hq0n : q0 + addBlack c = n := h _ ⟨q0, Or.inl hq0, rfl⟩
      have hl : IsBH l q0 := ihl.mpr fun p hp => by
        have := h _ ⟨p, Or.inl hp, rfl⟩
        omega
      have hr : IsBH r q0 := ihr.mpr fun p hp => by
        have := h _ ⟨p, Or.inr hp, rfl⟩
        omega
      have := IsBH.node (c := c) (k := k) hl hr
      rwa [hq0n] at this

theorem IsBH_get_black_height {t : Tree α} {n : Nat} (h : IsBH t n) :
    get_black_height t = n := by
  induction t generalizing n with
  | nil => simpa [get_black_height] using (IsBH_nil_inv h).symm
  | node c l k r ihl ihr =>
    obtain ⟨m, hl, hr, hn⟩ := IsBH_node_inv h
    simp [get_black_height, ihl hl, ihr hr, hn]

theorem validate_helper_spec {t : Tree α} {b e : Nat} :
    validate_helper t b e = true ↔ (NoRR t ∧ ∀ p ∈ pathCounts t, b + p = e) := by
  induction t generalizing b with
  | nil =>
    simp only [validate_helper, beq_iff_eq, pathCounts, List.mem_singleton]
    constructor
    · intro h
      refine ⟨trivial, fun p hp => ?_⟩
      subst hp
      simpa using h
    · rintro ⟨-, h⟩
      simpa using h 0 rfl
  | node c l k r ihl ihr =>
    by_cases hrr : c = .red ∧ (rootColor l = .red ∨ rootColor r = .red)
    · simp only [validate_helper, if_pos hrr]
      constructor
      · intro h
        exact absurd h (by simp)
      · rintro ⟨⟨hc, -, -⟩, -⟩
        rcases hrr.2 with h | h
        · exact absurd (hc hrr.1).1 (by simp [h])
        · exact absurd (hc hrr.1).2 (by simp [h])
    · simp only [validate_helper, if_neg hrr, Bool.and_eq_true, ihl, ihr]
      constructor
      · rintro ⟨⟨hnl, hpl⟩, hnr, hpr⟩
        refine ⟨⟨fun hc => ⟨?_, ?_⟩, hnl, hnr⟩, ?_⟩
        · cases hcl : rootColor l with
          | black => rfl
          | red => exact absurd ⟨hc, Or.inl hcl⟩ hrr
        · cases hcr : rootColor r with
          | black => rfl
          | red => exact absurd ⟨hc, Or.inr hcr⟩ hrr
        · simp only [pathCounts, List.mem_map, List.mem_append]
          rintro p ⟨q, hq | hq, rfl⟩
          · have := hpl q hq
            omega
          · have := hpr q hq
            omega
      · rintro ⟨⟨-, hnl, hnr⟩, hp⟩
        simp only [pathCounts, List.mem_map, List.mem_append] at hp
        refine ⟨⟨hnl, fun q hq => ?_⟩, hnr, fun q hq => ?_⟩
        · have := hp _ ⟨q, Or.inl hq, rfl⟩
          omega
        · have := hp _ ⟨q, Or.inr hq, rfl⟩
          omega

/-- Bridge between the Boolean validator and the invariant predicates. -/
theorem validate_iff_ValidRB {t : Tree α} :
    validate_rb_properties t = true ↔ ValidRB t := by
  cases t with
  | nil => exact iff_of_true rfl ⟨rfl, trivial, 0, IsBH.nil⟩
  | node c l k r =>
    cases c with
    | red =>
      apply iff_of_false
      · simp [validate_rb_properties]
      · rintro ⟨h1, -⟩
        exact absurd h1 (by simp [rootColor])
    | black =>
      rw [show validate_rb_properties (.node .black l k r)
            = validate_helper (.node .black l k r) 0
                (get_black_height (.node .black l k r)) from by
          simp [validate_rb_properties]]
      rw [validate_helper_spec]
      unfold ValidRB
      constructor
      · rintro ⟨hn, hp⟩
        refine ⟨rfl, hn, get_black_height (.node .black l k r), ?_⟩
        refine IsBH_iff_pathCounts.mpr fun p hp2 => ?_
        have := hp p hp2
        omega
      · rintro ⟨-, hn, n, hb⟩
        refine ⟨hn, fun p hp => ?_⟩
        have h1 := IsBH_iff_pathCounts.mp hb p hp
        rw [IsBH_get_black_height hb]
        omega

/-! The fixup walk `_fix_insert` restores all invariants.  The induction is on
the length of the ancestor context: Case 1 moves two frames up, every other
branch terminates the loop. -/

theorem NoRR_setBlack_fill {f : Frame α} {t : Tree α} (ht : NoRR t) (hs : NoRR f.sib) :
    NoRR (setBlack (fill f t)) := by
  cases f with
  | mk dir c k sib =>
    cases dir
    · exact ⟨by simp, ht, hs⟩
    · exact ⟨by simp, hs, ht⟩

theorem CtxBH_cons_inv {f : Frame α} {rest : Ctx α} {n m : Nat}
    (h : CtxBH (f :: rest) n m) :
    IsBH f.sib n ∧ CtxBH rest (n + addBlack f.c) m := by
  cases h with
  | cons h1 h2 => exact ⟨h1, h2⟩

theorem plug_finish {g : Tree α} {rest : Ctx α} {n m : Nat}
    (hg : NoRR g) (hbh : IsBH g n) (hc : CtxBH rest n m) (hok : ctxOK rest)
    (hd : ∀ f ∈ rest.head?, f.c = .red → rootColor g = .black) :
    rootColor (setBlack (plug g rest)) = .black ∧ NoRR (setBlack (plug g rest)) ∧
      ∃ h, IsBH (setBlack (plug g rest)) h :=
  ⟨rootColor_setBlack _, NoRR_setBlack (NoRR_plug hg hok hd),
    IsBH_setBlack (IsBH_plug hbh hc)⟩

theorem fix_insert_ok : ∀ (N : Nat) (ctx : Ctx α) (t : Tree α) (n m : Nat),
    ctx.length ≤ N → NoRR t → rootColor t = .red → IsBH t n →
    CtxBH ctx n m → ctxOK ctx →
    ∃ u, fix_insert t ctx = some u ∧ rootColor u = .black ∧ NoRR u ∧
      (∃ h, IsBH u h) ∧ keysOf u = keysOf (plug t ctx) := by
  intro N
  induction N with
  | zero =>
    intro ctx t n m hlen ht hred hbh hcbh hok
    have hctx : ctx = [] := List.length_eq_zero.mp (Nat.le_zero.mp hlen)
    subst hctx
    exact ⟨setBlack t, rfl, rootColor_setBlack _, NoRR_setBlack ht, IsBH_setBlack hbh, by simp⟩
  | succ N ih =>
    intro ctx t n m hlen ht hred hbh hcbh hok
    match ctx with
    | [] =>
      exact ⟨setBlack t, rfl, rootColor_setBlack _, NoRR_setBlack ht, IsBH_setBlack hbh, by simp⟩
    | ⟨pdir, pc, pk, psib⟩ :: rest =>
      obtain ⟨hbp, hcbh1⟩ := CtxBH_cons_inv hcbh
      cases pc with
      | black =>
        have heq : fix_insert t (⟨pdir, .black, pk, psib⟩ :: rest) =
            some (setBlack (plug t (⟨pdir, .black, pk, psib⟩ :: rest))) := by
          rw [fix_insert.eq_def]
          simp
        have hval : NoRR (plug t (⟨pdir, .black, pk, psib⟩ :: rest)) := by
          refine NoRR_plug ht hok ?_
          intro f hf hfr
          simp only [List.head?_cons, Option.mem_def, Option.some.injEq] at hf
          subst hf
          simp at hfr
        exact ⟨_, heq, rootColor_setBlack _, NoRR_setBlack hval,
          IsBH_setBlack (IsBH_plug hbh hcbh), by simp⟩
      | red =>
        match rest with
        | [] => exact absurd hok.2 (by simp)
        | ⟨gdir, gc, gk, gsib⟩ :: rest' =>
          have hfp : frameOK (⟨pdir, .red, pk, psib⟩ : Frame α) := hok.1
          have hpsib : NoRR psib := hfp.1
          have hpsibc : rootColor psib = .black := hfp.2 rfl
          have hokg : ctxOK (⟨gdir, gc, gk, gsib⟩ :: rest') := hok.2.2
          have hgc : gc = .black := by
            cases gc with
            | black => rfl
            | red => exact absurd (hok.2.1 rfl) (by simp)
          subst hgc
          have hgsib : NoRR gsib := (ctxOK_cons_frameOK hokg).1
          obtain ⟨hbg, hcbh2⟩ := CtxBH_cons_inv hcbh1
          simp only [addBlack] at hbg hcbh2
          rw [Nat.add_zero] at hbg hcbh2
          have hokr : ctxOK rest' := ctxOK_tail hokg
          by_cases huncle : rootColor gsib = .red
          · -- Case 1: uncle RED; recolor and continue two frames up.
            have heq : fix_insert t (⟨pdir, .red, pk, psib⟩ :: ⟨gdir, .black, gk, gsib⟩ :: rest')
                = fix_insert
                    (fill ⟨gdir, .red, gk, setBlack gsib⟩
                      (setBlack (fill ⟨pdir, .red, pk, psib⟩ t))) rest' := by
              rw [fix_insert.eq_def]
              simp [huncle]
            have ht' : NoRR (fill (⟨gdir, .red, gk, setBlack gsib⟩ : Frame α)
                (setBlack (fill ⟨pdir, .red, pk, psib⟩ t))) := by
              refine NoRR_fill (NoRR_setBlack_fill ht hpsib) ⟨NoRR_setBlack hgsib, fun h => ?_⟩ ?_
              · exact rootColor_setBlack _
              · intro h
                exact rootColor_setBlack _
            have hbh' : IsBH (fill (⟨gdir, .red, gk, setBlack gsib⟩ : Frame α)
                (setBlack (fill ⟨pdir, .red, pk, psib⟩ t))) (n + 1) := by
              have h1 : IsBH (fill (⟨pdir, .red, pk, psib⟩ : Frame α) t) n := by
                simpa [addBlack] using IsBH_fill hbh hbp
              have h2 := IsBH_setBlack_of_red (by simp) h1
              have h3 := IsBH_setBlack_of_red huncle hbg
              simpa [addBlack] using
                IsBH_fill (f := ⟨gdir, .red, gk, setBlack gsib⟩) h2 h3
            obtain ⟨u, hu, hu1, hu2, hu3, hu4⟩ :=
              ih rest' _ (n + 1) m (by simp at hlen ⊢; omega) ht' (by simp) hbh' hcbh2 hokr
            refine ⟨u, heq ▸ hu, hu1, hu2, hu3, ?_⟩
            rw [hu4]
            simp only [plug_cons]
            apply keysOf_plug_congr
            cases pdir <;> cases gdir <;> simp [fill, List.append_assoc]
          · -- Cases 2 and 3: uncle BLACK; rotate, recolor, loop exits.
            have hgsibc : rootColor gsib = .black := by
              cases h : rootColor gsib with
              | black => rfl
              | red => exact absurd h huncle
            cases gdir with
            | left =>
              cases pdir with
              | left =>
                -- Case 3 only.
                have heq : fix_insert t
                    (⟨Dir.left, .red, pk, psib⟩ :: ⟨Dir.left, .black, gk, gsib⟩ :: rest')
                    = some (setBlack (plug
                        (.node .black t pk (.node .red psib gk gsib)) rest')) := by
                  rw [fix_insert.eq_def]
                  simp [hgsibc, fill, left_rotate, right_rotate, setBlack]
                have hg : NoRR (Tree.node .black t pk (.node .red psib gk gsib)) :=
                  ⟨by simp, ht, ⟨fun _ => ⟨hpsibc, hgsibc⟩, hpsib, hgsib⟩⟩
                have hgb : IsBH (Tree.node .black t pk (.node .red psib gk gsib)) (n + 1) := by
                  have inner : IsBH (Tree.node .red psib gk gsib) n := by
                    simpa [addBlack] using IsBH.node (c := .red) (k := gk) hbp hbg
                  simpa [addBlack] using IsBH.node (c := .black) (k := pk) hbh inner
                obtain ⟨h1, h2, h3⟩ := plug_finish hg hgb hcbh2 hokr (fun f hf hfr => rfl)
                refine ⟨_, heq, h1, h2, h3, ?_⟩
                rw [keysOf_setBlack]
                simp only [plug_cons]
                apply keysOf_plug_congr
                simp [fill, List.append_assoc]
              | right =>
                -- Case 2 then Case 3: the current node must be a real RED node.
                match t, hred with
                | .node .red tl tk tr, _ =>
                  have htl : NoRR tl := ht.2.1
                  have htr : NoRR tr := ht.2.2
                  have htlc : rootColor tl = .black := (ht.1 rfl).1
                  have htrc : rootColor tr = .black := (ht.1 rfl).2
                  obtain ⟨n0, hbtl, hbtr, hn0⟩ := IsBH_node_inv hbh
                  have hnn : n0 = n := by
                    simp only [addBlack, Nat.add_zero] at hn0
                    omega
                  rw [hnn] at hbtl hbtr
                  have heq : fix_insert (.node .red tl tk tr)
                      (⟨Dir.right, .red, pk, psib⟩ :: ⟨Dir.left, .black, gk, gsib⟩ :: rest')
                      = some (setBlack (plug
                          (.node .black (.node .red psib pk tl) tk
                            (.node .red tr gk gsib)) rest')) := by
                    rw [fix_insert.eq_def]
                    simp [hgsibc, fill, left_rotate, right_rotate, setBlack]
                  have hg : NoRR (Tree.node .black (.node .red psib pk tl) tk
                      (.node .red tr gk gsib)) :=
                    ⟨by simp, ⟨fun _ => ⟨hpsibc, htlc⟩, hpsib, htl⟩,
                      ⟨fun _ => ⟨htrc, hgsibc⟩, htr, hgsib⟩⟩
                  have hgb : IsBH (Tree.node .black (.node .red psib pk tl) tk
                      (.node .red tr gk gsib)) (n + 1) := by
                    have i1 : IsBH (Tree.node .red psib pk tl) n := by
                      simpa [addBlack] using IsBH.node (c := .red) (k := pk) hbp hbtl
                    have i2 : IsBH (Tree.node .red tr gk gsib) n := by
                      simpa [addBlack] using IsBH.node (c := .red) (k := gk) hbtr hbg
                    simpa [addBlack] using IsBH.node (c := .black) (k := tk) i1 i2
                  obtain ⟨h1, h2, h3⟩ := plug_finish hg hgb hcbh2 hokr (fun f hf hfr => rfl)
                  refine ⟨_, heq, h1, h2, h3, ?_⟩
                  rw [keysOf_setBlack]
                  simp only [plug_cons]
                  apply keysOf_plug_congr
                  simp [fill, List.append_assoc]
            | right =>
              cases pdir with
              | right =>
                -- Case 3 only, mirror image.
                have heq : fix_insert t
                    (⟨Dir.right, .red, pk, psib⟩ :: ⟨Dir.right, .black, gk, gsib⟩ :: rest')
                    = some (setBlack (plug
                        (.node .black (.node .red gsib gk psib) pk t) rest')) := by
                  rw [fix_insert.eq_def]
                  simp [hgsibc, fill, left_rotate, right_rotate, setBlack]
                have hg : NoRR (Tree.node .black (.node .red gsib gk psib) pk t) :=
                  ⟨by simp, ⟨fun _ => ⟨hgsibc, hpsibc⟩, hgsib, hpsib⟩, ht⟩
                have hgb : IsBH (Tree.node .black (.node .red gsib gk psib) pk t) (n + 1) := by
                  have inner : IsBH (Tree.node .red gsib gk psib) n := by
                    simpa [addBlack] using IsBH.node (c := .red) (k := gk) hbg hbp
                  simpa [addBlack] using IsBH.node (c := .black) (k := pk) inner hbh
                obtain ⟨h1, h2, h3⟩ := plug_finish hg hgb hcbh2 hokr (fun f hf hfr => rfl)
                refine ⟨_, heq, h1, h2, h3, ?_⟩
                rw [keysOf_setBlack]
                simp only [plug_cons]
                apply keysOf_plug_congr
                simp [fill, List.append_assoc]
              | left =>
                -- Case 2 then Case 3, mirror image.
                match t, hred with
                | .node .red tl tk tr, _ =>
                  have htl : NoRR tl := ht.2.1
                  have htr : NoRR tr := ht.2.2
                  have htlc : rootColor tl = .black := (ht.1 rfl).1
                  have htrc : rootColor tr = .black := (ht.1 rfl).2
                  obtain ⟨n0, hbtl, hbtr, hn0⟩ := IsBH_node_inv hbh
                  have hnn : n0 = n := by
                    simp only [addBlack, Nat.add_zero] at hn0
                    omega
                  rw [hnn] at hbtl hbtr
                  have heq : fix_insert (.node .red tl tk tr)
                      (⟨Dir.left, .red, pk, psib⟩ :: ⟨Dir.right, .black, gk, gsib⟩ :: rest')
                      = some (setBlack (plug
                          (.node .black (.node .red gsib gk tl) tk
                            (.node .red tr pk psib)) rest')) := by
                    rw [fix_insert.eq_def]
                    simp [hgsibc, fill, left_rotate, right_rotate, setBlack]
                  have hg : NoRR (Tree.node .black (.node .red gsib gk tl) tk
                      (.node .red tr pk psib)) :=
                    ⟨by simp, ⟨fun _ => ⟨hgsibc, htlc⟩, hgsib, htl⟩,
                      ⟨fun _ => ⟨htrc, hpsibc⟩, htr, hpsib⟩⟩
                  have hgb : IsBH (Tree.node .black (.node .red gsib gk tl) tk
                      (.node .red tr pk psib)) (n + 1) := by
                    have i1 : IsBH (Tree.node .red gsib gk tl) n := by
                      simpa [addBlack] using IsBH.node (c := .red) (k := gk) hbg hbtl
                    have i2 : IsBH (Tree.node .red tr pk psib) n := by
                      simpa [addBlack] using IsBH.node (c := .red) (k := pk) hbtr hbp
                    simpa [addBlack] using IsBH.node (c := .black) (k := tk) i1 i2
                  obtain ⟨h1, h2, h3⟩ := plug_finish hg hgb hcbh2 hokr (fun f hf hfr => rfl)
                  refine ⟨_, heq, h1, h2, h3, ?_⟩
                  rw [keysOf_setBlack]
                  simp only [plug_cons]
                  apply keysOf_plug_congr
                  simp [fill, List.append_assoc]

/-! The BST descent of `insert` produces a well-formed context. -/

theorem descend_ok (k : α) : ∀ (t : Tree α) (acc : Ctx α) (n m : Nat),
    NoRR t → IsBH t n → CtxBH acc n m → ctxOK acc →
    (match acc with
     | [] => rootColor t = .black
     | f :: _ => f.c = .red → rootColor t = .black) →
    CtxBH (descend k t acc) 0 m ∧ ctxOK (descend k t acc) := by
  intro t
  induction t with
  | nil =>
    intro acc n m ht hbh hcbh hok hpush
    have h0 : n = 0 := IsBH_nil_inv hbh
    subst h0
    exact ⟨by simpa [descend] using hcbh, by simpa [descend] using hok⟩
  | node c l key r ihl ihr =>
    intro acc n m ht hbh hcbh hok hpush
    obtain ⟨n1, hbl, hbr, hn⟩ := IsBH_node_inv hbh
    subst hn
    have hfl : frameOK (⟨.left, c, key, r⟩ : Frame α) := ⟨ht.2.2, fun hc => (ht.1 hc).2⟩
    have hfr2 : frameOK (⟨.right, c, key, l⟩ : Frame α) := ⟨ht.2.1, fun hc => (ht.1 hc).1⟩
    simp only [descend]
    by_cases hlt : k < key
    · rw [if_pos hlt]
      refine ihl (⟨.left, c, key, r⟩ :: acc) n1 m ht.2.1 hbl (CtxBH.cons hbr hcbh) ?_ ?_
      · cases acc with
        | nil => exact ⟨hfl, hpush⟩
        | cons g acc' => exact ⟨hfl, fun hg => hpush hg, hok⟩
      · intro hcred
        exact (ht.1 hcred).1
    · rw [if_neg hlt]
      refine ihr (⟨.right, c, key, l⟩ :: acc) n1 m ht.2.2 hbr (CtxBH.cons hbl hcbh) ?_ ?_
      · cases acc with
        | nil => exact ⟨hfr2, hpush⟩
        | cons g acc' => exact ⟨hfr2, fun hg => hpush hg, hok⟩
      · intro hcred
        exact (ht.1 hcred).2

/-- The tree the descent phase assembles is exactly `insertAt`: the new
subtree replaces the sentinel found by the BST walk. -/
theorem plug_descend (k : α) (s : Tree α) :
    ∀ (t : Tree α) (acc : Ctx α), plug s (descend k t acc) = plug (insertAt t k s) acc := by
  intro t
  induction t with
  | nil => intro acc; rfl
  | node c l key r ihl ihr =>
    intro acc
    by_cases hlt : k < key
    · simp only [descend, insertAt, if_pos hlt]
      rw [ihl]
      rfl
    · simp only [descend, insertAt, if_neg hlt]
      rw [ihr]
      rfl

/-- One `insert` call on a valid tree: it succeeds, the result is valid, and
its traversal keys are those of the plain BST insertion of a red leaf. -/
theorem insert_ok {t : Tree α} (k : α) (h : ValidRB t) :
    ∃ u, insert t k = some u ∧ ValidRB u ∧
      keysOf u = keysOf (insertAt t k (.node .red .nil k .nil)) := by
  obtain ⟨hroot, hnr, n, hbh⟩ := h
  obtain ⟨hcb, hco⟩ := descend_ok k t [] n n hnr hbh CtxBH.nil trivial hroot
  obtain ⟨u, hu, h1, h2, h3, h4⟩ :=
    fix_insert_ok (descend k t []).length (descend k t []) (.node .red .nil k .nil) 0 n
      le_rfl ⟨fun _ => ⟨rfl, rfl⟩, trivial, trivial⟩ rfl
      (IsBH.node IsBH.nil IsBH.nil) hcb hco
  refine ⟨u, hu, ⟨h1, h2, h3⟩, ?_⟩
  rw [h4, plug_descend]
  rfl

/-! Ordering and multiset content of the traversal. -/

theorem mem_keysOf_insertAt {t s : Tree α} {k x : α}
    (h : x ∈ keysOf (insertAt t k s)) : x ∈ keysOf t ∨ x ∈ keysOf s := by
  induction t with
  | nil => exact Or.inr (by simpa [insertAt] using h)
  | node c l key r ihl ihr =>
    by_cases hlt : k < key
    · simp only [insertAt, if_pos hlt, keysOf_node, List.mem_append, List.mem_cons] at h ⊢
      rcases h with h | h | h
      · rcases ihl h with h2 | h2
        · exact Or.inl (Or.inl h2)
        · exact Or.inr h2
      · exact Or.inl (Or.inr (Or.inl h))
      · exact Or.inl (Or.inr (Or.inr h))
    · simp only [insertAt, if_neg hlt, keysOf_node, List.mem_append, List.mem_cons] at h ⊢
      rcases h with h | h | h
      · exact Or.inl (Or.inl h)
      · exact Or.inl (Or.inr (Or.inl h))
      · rcases ihr h with h2 | h2
        · exact Or.inl (Or.inr (Or.inr h2))
        · exact Or.inr h2

theorem keysOf_insertAt_perm (t s : Tree α) (k : α) :
    (keysOf (insertAt t k s)).Perm (keysOf s ++ keysOf t) := by
  induction t with
  | nil => simp [insertAt]
  | node c l key r ihl ihr =>
    by_cases hlt : k < key
    · simp only [insertAt, if_pos hlt, keysOf_node]
      have h1 : ((keysOf (insertAt l k s)) ++ key :: keysOf r).Perm
          ((keysOf s ++ keysOf l) ++ key :: keysOf r) := ihl.append_right _
      simpa [List.append_assoc] using h1
    · simp only [insertAt, if_neg hlt, keysOf_node]
      refine (List.Perm.append_left _ (List.Perm.cons _ ihr)).trans ?_
      refine List.perm_middle.trans ?_
      refine List.Perm.trans ?_ (List.Perm.append_left _ List.perm_middle.symm)
      refine List.Perm.trans ?_ List.perm_middle.symm
      refine List.Perm.cons _ ?_
      rw [← List.append_assoc, ← List.append_assoc]
      exact (List.perm_append_comm).append_right _

theorem Ordered_insertAt_leaf {t : Tree α} (k : α) (ho : Ordered t) :
    Ordered (insertAt t k (.node .red .nil k .nil)) := by
  induction t with
  | nil => exact ⟨trivial, trivial, by simp, by simp⟩
  | node c l key r ihl ihr =>
    obtain ⟨hol, hor, hbl, hbr⟩ := ho
    by_cases hlt : k < key
    · simp only [insertAt, if_pos hlt]
      refine ⟨ihl hol, hor, ?_, hbr⟩
      intro x hx
      rcases mem_keysOf_insertAt hx with h | h
      · exact hbl x h
      · have : x = k := by simpa using h
        subst this
        exact hlt.le
    · simp only [insertAt, if_neg hlt]
      refine ⟨hol, ihr hor, hbl, ?_⟩
      intro x hx
      rcases mem_keysOf_insertAt hx with h | h
      · exact hbr x h
      · have : x = k := by simpa using h
        subst this
        exact le_of_not_lt hlt

theorem Ordered_iff_sorted {t : Tree α} :
    Ordered t ↔ (keysOf t).Sorted (· ≤ ·) := by
  induction t with
  | nil => simp [Ordered]
  | node c l key r ihl ihr =>
    simp only [Ordered, keysOf_node, ihl, ihr, List.Sorted, List.pairwise_append,
      List.pairwise_cons, List.mem_cons]
    constructor
    · rintro ⟨hsl, hsr, hbl, hbr⟩
      refine ⟨hsl, ⟨hbr, hsr⟩, ?_⟩
      intro a ha b hb
      rcases hb with rfl | hb
      · exact hbl a ha
      · exact le_trans (hbl a ha) (hbr b hb)
    · rintro ⟨hsl, ⟨hbr, hsr⟩, hcross⟩
      exact ⟨hsl, hsr, fun x hx => hcross x hx key (Or.inl rfl), hbr⟩

/-! Search correctness on ordered trees. -/

theorem search_eq_nil_of_not_mem {t : Tree α} {k : α} (h : k ∉ keysOf t) :
    search t k = .nil := by
  induction t with
  | nil => rfl
  | node c l key r ihl ihr =>
    simp only [keysOf_node, List.mem_append, List.mem_cons] at h
    push_neg at h
    obtain ⟨h1, h2, h3⟩ := h
    simp only [search, if_neg h2]
    by_cases hlt : k < key
    · rw [if_pos hlt]
      exact ihl h1
    · rw [if_neg hlt]
      exact ihr h3

theorem search_found_of_mem {t : Tree α} {k : α} (ho : Ordered t) (h : k ∈ keysOf t) :
    ∃ c l r, search t k = .node c l k r := by
  induction t with
  | nil => simp at h
  | node c l key r ihl ihr =>
    obtain ⟨hol, hor, hbl, hbr⟩ := ho
    by_cases heq : k = key
    · subst heq
      exact ⟨c, l, r, by simp [search]⟩
    · simp only [keysOf_node, List.mem_append, List.mem_cons] at h
      by_cases hlt : k < key
      · have hkl : k ∈ keysOf l := by
          rcases h with h | h | h
          · exact h
          · exact absurd h heq
          · exact absurd hlt (not_lt.mpr (hbr k h))
        obtain ⟨c2, l2, r2, hs⟩ := ihl hol hkl
        refine ⟨c2, l2, r2, ?_⟩
        simp only [search, if_neg heq, if_pos hlt]
        exact hs
      · have hgt : key < k := lt_of_le_of_ne (le_of_not_lt hlt) (Ne.symm heq)
        have hkr : k ∈ keysOf r := by
          rcases h with h | h | h
          · exact absurd (hbl k h) (not_le.mpr hgt)
          · exact absurd h heq
          · exact h
        obtain ⟨c2, l2, r2, hs⟩ := ihr hor hkr
        refine ⟨c2, l2, r2, ?_⟩
        simp only [search, if_neg heq, if_neg hlt]
        exact hs

/-! Full specification of a sequence of inserts. -/

theorem insert_sorted {t : Tree α} (k : α) (hv : ValidRB t) (ho : Ordered t) :
    ∃ u, insert t k = some u ∧ ValidRB u ∧ Ordered u ∧ (keysOf u).Perm (k :: keysOf t) := by
  obtain ⟨u, hu, hval, hkeys⟩ := insert_ok k hv
  have hperm : (keysOf u).Perm (k :: keysOf t) := by
    rw [hkeys]
    have h1 := keysOf_insertAt_perm t (.node .red .nil k .nil) k
    simpa using h1
  have hord : Ordered u := by
    rw [Ordered_iff_sorted, hkeys]
    exact Ordered_iff_sorted.mp (Ordered_insertAt_leaf k ho)
  exact ⟨u, hu, hval, hord, hperm⟩

theorem insertAll_ok : ∀ (ks : List α) (t : Tree α), ValidRB t → Ordered t →
    ∃ u, insertAll t ks = some u ∧ ValidRB u ∧ Ordered u ∧
      (keysOf u).Perm (ks ++ keysOf t) := by
  intro ks
  induction ks with
  | nil =>
    intro t hv ho
    exact ⟨t, rfl, hv, ho, by simp⟩
  | cons k ks ih =>
    intro t hv ho
    obtain ⟨u, hu, hv2, ho2, hp⟩ := insert_sorted k hv ho
    obtain ⟨w, hw, hv3, ho3, hp3⟩ := ih u hv2 ho2
    refine ⟨w, ?_, hv3, ho3, ?_⟩
    · simp only [insertAll, hu]
      exact hw
    · refine hp3.trans ?_
      refine (List.Perm.append_left _ hp).trans ?_
      exact List.perm_middle

theorem ValidRB_nil : ValidRB (.nil : Tree α) :=
  ⟨rfl, trivial, 0, IsBH.nil⟩

theorem insertAll_nil_ok (ks : List α) :
    ∃ u, insertAll .nil ks = some u ∧ ValidRB u ∧ Ordered u ∧ (keysOf u).Perm ks := by
  obtain ⟨u, hu, hv, ho, hp⟩ := insertAll_ok ks .nil ValidRB_nil trivial
  exact ⟨u, hu, hv, ho, by simpa using hp⟩

theorem IsBH_of_isSubtree {s t : Tree α} {n : Nat} (hs : isSubtree s t = true)
    (h : IsBH t n) : ∃ m, IsBH s m := by
  induction t generalizing n with
  | nil =>
    have h0 : s = .nil := by simpa [isSubtree] using hs
    subst h0
    exact ⟨0, IsBH.nil⟩
  | node c l k r ihl ihr =>
    obtain ⟨m, hl, hr, -⟩ := IsBH_node_inv h
    have hs2 : (s = Tree.node c l k r ∨ isSubtree s l = true) ∨ isSubtree s r = true := by
      simpa [isSubtree, Bool.or_eq_true] using hs
    rcases hs2 with (h1 | h1) | h1
    · subst h1
      exact ⟨_, h⟩
    · exact ihl h1 hl
    · exact ihr h1 hr

/-! Claim theorems. -/

/-- C1: for every finite sequence of `insert` calls performed on an initially
empty `RedBlackTree`, `validate_rb_properties()` returns true after each
call.  The sequence of keys is universally quantified, so the state after any
single call is covered by instantiating `ks` with the prefix of calls made so
far; the existential also shows every insert succeeded. -/
theorem insert_sequence_validates (ks : List α) :
    ∃ t, insertAll .nil ks = some t ∧ validate_rb_properties t = true := by
  obtain ⟨t, ht, hv, -, -⟩ := insertAll_nil_ok ks
  exact ⟨t, ht, validate_iff_ValidRB.mpr hv⟩

/-- C2: on the tree built by any sequence of inserts, `search k` returns a
non-sentinel node whose key equals `k` whenever `k` was inserted, and the
sentinel whenever it was not. -/
theorem search_correct (ks : List α) (k : α) :
    ∃ t, insertAll .nil ks = some t ∧
      (k ∈ ks → ∃ c l r, search t k = .node c l k r) ∧
      (k ∉ ks → search t k = .nil) := by
  obtain ⟨t, ht, -, ho, hp⟩ := insertAll_nil_ok ks
  refine ⟨t, ht, fun hk => ?_, fun hk => ?_⟩
  · exact search_found_of_mem ho (hp.mem_iff.mpr hk)
  · exact search_eq_nil_of_not_mem fun hmem => hk (hp.mem_iff.mp hmem)

/-- Witness for C2 at the concrete sequence `[2, 1]`: key 1 is found with the
right key, key 3 is a miss. -/
theorem search_correct_witness :
    (∃ t, insertAll (.nil : Tree Nat) [2, 1] = some t ∧
      ∃ c l r, search t 1 = .node c l 1 r) ∧
    (∃ t, insertAll (.nil : Tree Nat) [2, 1] = some t ∧ search t 3 = .nil) := by
  constructor
  · obtain ⟨t, ht, hf, -⟩ := search_correct [2, 1] 1
    exact ⟨t, ht, hf (by decide)⟩
  · obtain ⟨t, ht, -, hm⟩ := search_correct [2, 1] 3
    exact ⟨t, ht, hm (by decide)⟩

/-- C3: after any sequence of inserts, `inorder_traversal` yields the keys in
non-decreasing order, and as a multiset they are exactly the inserted keys
with their multiplicities (`List.Perm` is multiset equality). -/
theorem inorder_sorted_perm (ks : List α) :
    ∃ t, insertAll .nil ks = some t ∧
      ((inorder_traversal t).map Prod.fst).Sorted (· ≤ ·) ∧
      ((inorder_traversal t).map Prod.fst).Perm ks := by
  obtain ⟨t, ht, -, ho, hp⟩ := insertAll_nil_ok ks
  exact ⟨t, ht, Ordered_iff_sorted.mp ho, hp⟩

/-- C4: `validate_rb_properties` decides exactly the red-black invariants: it
returns true iff the root is BLACK (or the tree is empty), no RED node has a
RED child, and every root-to-sentinel path carries the same number of BLACK
non-sentinel nodes, equal to `get_black_height` of the root. -/
theorem validate_decides_invariants (t : Tree α) :
    validate_rb_properties t = true ↔
      ((t = .nil ∨ rootColor t = .black) ∧ NoRR t ∧
        ∀ p ∈ pathCounts t, p = get_black_height t) := by
  rw [validate_iff_ValidRB]
  unfold ValidRB
  constructor
  · rintro ⟨h1, h2, n, h3⟩
    refine ⟨Or.inr h1, h2, fun p hp => ?_⟩
    rw [IsBH_get_black_height h3]
    exact IsBH_iff_pathCounts.mp h3 p hp
  · rintro ⟨h1, h2, h3⟩
    refine ⟨?_, h2, get_black_height t, IsBH_iff_pathCounts.mpr h3⟩
    rcases h1 with rfl | h1
    · rfl
    · exact h1

/-- C5: on a tree that validates, `insert k` always succeeds; the descent
phase attaches exactly one new RED leaf with sentinel children at the
position of the standard BST walk (strictly-less left, equal-or-greater
right, hence a duplicate key is routed right); afterwards the tree still
validates and the traversal contains one more copy of `k` than before. -/
theorem insert_spec (t : Tree α) (k : α) (h : validate_rb_properties t = true) :
    ∃ u, insert t k = some u ∧ validate_rb_properties u = true ∧
      plug (.node .red .nil k .nil) (descend k t []) =
        insertAt t k (.node .red .nil k .nil) ∧
      (keysOf u).Perm (k :: keysOf t) ∧
      (keysOf u).count k = (keysOf t).count k + 1 := by
  obtain ⟨u, hu, hv, hkeys⟩ := insert_ok k (validate_iff_ValidRB.mp h)
  have hp : (keysOf u).Perm (k :: keysOf t) := by
    rw [hkeys]
    have h1 := keysOf_insertAt_perm t (.node .red .nil k .nil) k
    simpa using h1
  refine ⟨u, hu, validate_iff_ValidRB.mpr hv, plug_descend k _ t [], hp, ?_⟩
  rw [hp.count_eq]
  simp

/-- Witness for C5: inserting the duplicate key 1 into the valid one-node
tree holding 1. -/
theorem insert_spec_witness :
    ∃ u, insert (Tree.node .black .nil (1 : Nat) .nil) 1 = some u ∧
      validate_rb_properties u = true ∧
      plug (.node .red .nil 1 .nil) (descend 1 (Tree.node .black .nil (1 : Nat) .nil) []) =
        insertAt (Tree.node .black .nil (1 : Nat) .nil) 1 (.node .red .nil 1 .nil) ∧
      (keysOf u).Perm (1 :: keysOf (Tree.node .black .nil (1 : Nat) .nil)) ∧
      (keysOf u).count 1 = (keysOf (Tree.node .black .nil (1 : Nat) .nil)).count 1 + 1 :=
  insert_spec (Tree.node .black .nil (1 : Nat) .nil) 1 (by decide)

/-- C6: the two rotations are inverse pointer surgeries.  When
`left_rotate x` succeeds (the right child `y` of `x` is a real node),
`right_rotate` applied at the promoted node `y` restores the original
subtree exactly — same parents, children, keys and colors — and symmetrically;
the preserved `inorder_traversal` pairs record that no key or color moves to
a different node. -/
theorem rotate_inverse (t u : Tree α) :
    (left_rotate t = some u →
      right_rotate u = some t ∧ inorder_traversal u = inorder_traversal t) ∧
    (right_rotate t = some u →
      left_rotate u = some t ∧ inorder_traversal u = inorder_traversal t) := by
  constructor
  · intro h
    cases t with
    | nil => exact absurd h (by simp [left_rotate])
    | node cx a kx rc =>
      cases rc with
      | nil => exact absurd h (by simp [left_rotate])
      | node cy b ky c =>
        have hu : u = .node cy (.node cx a kx b) ky c := by
          simpa [left_rotate] using h.symm
        subst hu
        exact ⟨rfl, by simp [inorder_traversal, List.append_assoc]⟩
  · intro h
    cases t with
    | nil => exact absurd h (by simp [right_rotate])
    | node cx lc kx c =>
      cases lc with
      | nil => exact absurd h (by simp [right_rotate])
      | node cy a ky b =>
        have hu : u = .node cy a ky (.node cx b kx c) := by
          simpa [right_rotate] using h.symm
        subst hu
        exact ⟨rfl, by simp [inorder_traversal, List.append_assoc]⟩

/-- Witness for C6 at a concrete two-node subtree. -/
theorem rotate_inverse_witness :
    right_rotate (Tree.node .black (Tree.node .red .nil (1 : Nat) .nil) 2 .nil) =
        some (Tree.node .red .nil 1 (Tree.node .black .nil 2 .nil)) ∧
      inorder_traversal (Tree.node .black (Tree.node .red .nil (1 : Nat) .nil) 2 .nil) =
        inorder_traversal (Tree.node .red .nil 1 (Tree.node .black .nil 2 .nil)) :=
  (rotate_inverse (Tree.node .red .nil 1 (Tree.node .black .nil 2 .nil))
    (Tree.node .black (Tree.node .red .nil (1 : Nat) .nil) 2 .nil)).1 rfl

/-- C7 counterexample: in the valid tree built by inserting `[1, 2]`, the
node holding 2 is RED; every path from it to a descendant sentinel carries
one BLACK node (the sentinel, excluded node itself not counted), but
`get_black_height` returns 0 there.  So `get_black_height` does not compute
the black-height of the spec glossary (count excluding the node); it counts
BLACK non-sentinel nodes including the starting node. -/
theorem black_height_spec_cex :
    validate_rb_properties
        (Tree.node .black .nil (1 : Nat) (Tree.node .red .nil 2 .nil)) = true ∧
      insertAll (.nil : Tree Nat) [1, 2] =
        some (Tree.node .black .nil 1 (Tree.node .red .nil 2 .nil)) ∧
      isSubtree (Tree.node .red .nil (2 : Nat) .nil)
        (Tree.node .black .nil 1 (Tree.node .red .nil 2 .nil)) = true ∧
      ¬ ∀ p ∈ pathBlacksExcl (Tree.node .red .nil (2 : Nat) .nil),
          get_black_height (Tree.node .red .nil (2 : Nat) .nil) = p := by
  decide

/-- C7 amended: for every node of a well-formed tree, `get_black_height`
returns the number of BLACK non-sentinel nodes on any path from that node to
a descendant sentinel, counting the starting node itself (and not the
sentinel).  For BLACK nodes — in particular the root — this coincides with
the count of the spec glossary. -/
theorem black_height_amended (T U : Tree α) (hT : validate_rb_properties T = true)
    (hs : isSubtree U T = true) :
    ∀ p ∈ pathCounts U, get_black_height U = p := by
  obtain ⟨-, -, n, hbh⟩ := validate_iff_ValidRB.mp hT
  obtain ⟨m, hm⟩ := IsBH_of_isSubtree hs hbh
  intro p hp
  rw [IsBH_get_black_height hm]
  exact (IsBH_iff_pathCounts.mp hm p hp).symm

/-- Witness for the amended C7 at the RED node of the `[1, 2]` tree: its path
count including the node itself is 0, and so is `get_black_height`. -/
theorem black_height_amended_witness :
    get_black_height (Tree.node .red .nil (2 : Nat) .nil) = 0 :=
  black_height_amended (Tree.node .black .nil 1 (Tree.node .red .nil 2 .nil))
    (Tree.node .red .nil (2 : Nat) .nil) (by decide) (by decide) 0 (by decide)

/-- C8: after inserting `[1, 2, 3, 4, 5, 6, 7]` in ascending order,
`get_black_height` of the root is at most 3 (the claimed bound is the
ceiling of log2(n+1) = log2 8 = 3; the tree in fact has black height 2). -/
theorem ascending_insert_balanced :
    ∃ t, insertAll (.nil : Tree Nat) [1, 2, 3, 4, 5, 6, 7] = some t ∧
      get_black_height t ≤ 3 := by
  refine ⟨Tree.node .black
      (Tree.node .black .nil 1 .nil) 2
      (Tree.node .red
        (Tree.node .black .nil 3 .nil) 4
        (Tree.node .black (Tree.node .red .nil 5 .nil) 6
          (Tree.node .red .nil 7 .nil))), by decide, by decide⟩

/-- C9: on a valid tree `_fix_insert` never dereferences `None`.  In this
embedding the `none` result of `fix_insert` marks exactly the states in
which the Python loop body runs with a RED `node.parent` that is the root:
there `node.parent.parent` is the sentinel, whose `left`/`right` slots are
`None`, and `uncle.color` would crash.  On every tree accepted by the
validator, `insert` reaches no such state, so a result exists. -/
theorem fix_insert_safe (t : Tree α) (k : α) (h : validate_rb_properties t = true) :
    ∃ u, insert t k = some u := by
  obtain ⟨u, hu, -, -⟩ := insert_ok k (validate_iff_ValidRB.mp h)
  exact ⟨u, hu⟩

/-- Witness for C9 on a concrete valid tree. -/
theorem fix_insert_safe_witness :
    ∃ u, insert (Tree.node .black .nil (5 : Nat) .nil) 5 = some u :=
  fix_insert_safe (Tree.node .black .nil (5 : Nat) .nil) 5 (by decide)

end RBT

namespace HeapSort

variable {α : Type} [LinearOrder α] [Inhabited α]

/-! Basic facts about `swapL`. -/

theorem swapL_length (arr : List α) (i j : Nat) : (swapL arr i j).length = arr.length := by
  simp [swapL]

theorem swapL_getElem?_ne (arr : List α) {i j k : Nat} (h1 : k ≠ i) (h2 : k ≠ j) :
    (swapL arr i j)[k]? = arr[k]? := by
  rw [swapL, List.getElem?_set_ne (Ne.symm h2), List.getElem?_set_ne (Ne.symm h1)]

theorem swapL_getElem?_fst {arr : List α} {i j : Nat} (hi : i < arr.length) (hij : i ≠ j) :
    (swapL arr i j)[i]? = some (arr.getD j default) := by
  rw [swapL, List.getElem?_set_ne (Ne.symm hij), List.getElem?_set_self hi]

theorem swapL_getElem?_snd {arr : List α} {i j : Nat} (hj : j < arr.length) :
    (swapL arr i j)[j]? = some (arr.getD i default) := by
  rw [swapL, List.getElem?_set_self (by simpa using hj)]

theorem swapL_getD_ne {arr : List α} {i j k : Nat} (h1 : k ≠ i) (h2 : k ≠ j) :
    (swapL arr i j).getD k default = arr.getD k default := by
  rw [List.getD_eq_getElem?_getD, swapL_getElem?_ne arr h1 h2, ← List.getD_eq_getElem?_getD]

theorem swapL_getD_fst {arr : List α} {i j : Nat} (hi : i < arr.length) (hij : i ≠ j) :
    (swapL arr i j).getD i default = arr.getD j default := by
  rw [List.getD_eq_getElem?_getD, swapL_getElem?_fst hi hij]
  rfl

theorem swapL_getD_snd {arr : List α} {i j : Nat} (hj : j < arr.length) :
    (swapL arr i j).getD j default = arr.getD i default := by
  rw [List.getD_eq_getElem?_getD, swapL_getElem?_snd hj]
  rfl

theorem cons_set_perm : ∀ (l : List α) (m : Nat) (x : α), m < l.length →
    (l.getD m default :: l.set m x).Perm (x :: l)
  | [], m, x, h => absurd h (by simp)
  | a :: tl, 0, x, h => by simpa using List.Perm.swap x a tl
  | a :: tl, m + 1, x, h => by
    have ih := cons_set_perm tl m x (by simpa using h)
    simp only [List.getD_cons_succ, List.set]
    refine (List.Perm.swap a _ _).trans ?_
    refine (List.Perm.cons a ih).trans ?_
    exact List.Perm.swap x a tl

theorem set_getD_self : ∀ (l : List α) (i : Nat), i < l.length →
    l.set i (l.getD i default) = l
  | [], i, h => absurd h (by simp)
  | a :: tl, 0, h => by simp
  | a :: tl, i + 1, h => by
    simp only [List.getD_cons_succ, List.set]
    rw [set_getD_self tl i (by simpa using h)]

theorem swapL_perm {arr : List α} {i j : Nat} (hi : i < arr.length) (hj : j < arr.length) :
    (swapL arr i j).Perm arr := by
  by_cases hij : i = j
  · subst hij
    rw [swapL, List.set_set, set_getD_self arr i hi]
  · have P := cons_set_perm (arr.set i (arr.getD j default)) j (arr.getD i default)
      (by simpa using hj)
    have hgd : (arr.set i (arr.getD j default)).getD j default = arr.getD j default := by
      rw [List.getD_eq_getElem?_getD, List.getElem?_set_ne hij, ← List.getD_eq_getElem?_getD]
    rw [hgd] at P
    have Q := cons_set_perm arr i (arr.getD j default) hi
    exact (P.trans Q).cons_inv

/-! Facts about the `largest` selection. -/

theorem heapifyStep_lt {arr : List α} {n i : Nat} (h : heapifyStep arr n i ≠ i) :
    i < heapifyStep arr n i ∧ heapifyStep arr n i < n := by
  unfold heapifyStep at h ⊢
  split_ifs at h ⊢ with h1 h2 h3
  · exact ⟨by omega, h2.1⟩
  · exact ⟨by omega, h1.1⟩
  · exact ⟨by omega, h3.1⟩
  · exact absurd rfl h

theorem heapifyStep_mem (arr : List α) (n i : Nat) :
    heapifyStep arr n i = i ∨ heapifyStep arr n i = 2 * i + 1 ∨
      heapifyStep arr n i = 2 * i + 2 := by
  unfold heapifyStep
  split_ifs <;> simp

theorem heapifyStep_ge (arr : List α) (n i : Nat) :
    arr.getD i default ≤ arr.getD (heapifyStep arr n i) default := by
  unfold heapifyStep
  split_ifs with h1 h2 h3
  · exact le_of_lt (lt_trans h1.2 h2.2)
  · exact le_of_lt h1.2
  · exact le_of_lt h3.2
  · exact le_rfl

theorem heapifyStep_max (arr : List α) (n i : Nat) {j : Nat}
    (hj : j = i ∨ (j = 2 * i + 1 ∧ 2 * i + 1 < n) ∨ (j = 2 * i + 2 ∧ 2 * i + 2 < n)) :
    arr.getD j default ≤ arr.getD (heapifyStep arr n i) default := by
  rcases hj with h0 | ⟨h0, hjn⟩ | ⟨h0, hjn⟩ <;> rw [h0]
  · exact heapifyStep_ge arr n i
  · unfold heapifyStep
    split_ifs with h1 h2 h3
    · exact le_of_lt h2.2
    · exact le_rfl
    · have hle : ¬ arr.getD i default < arr.getD (2 * i + 1) default :=
        fun hc => h1 ⟨hjn, hc⟩
      exact le_trans (le_of_not_lt hle) (le_of_lt h3.2)
    · have hle : ¬ arr.getD i default < arr.getD (2 * i + 1) default :=
        fun hc => h1 ⟨hjn, hc⟩
      exact le_of_not_lt hle
  · unfold heapifyStep
    split_ifs with h1 h2 h3
    · exact le_rfl
    · have hle : ¬ arr.getD (2 * i + 1) default < arr.getD (2 * i + 2) default :=
        fun hc => h2 ⟨hjn, hc⟩
      exact le_of_not_lt hle
    · exact le_rfl
    · have hle : ¬ arr.getD i default < arr.getD (2 * i + 2) default :=
        fun hc => h3 ⟨hjn, hc⟩
      exact le_of_not_lt hle

/-! Arithmetic of the implicit heap tree: position `j` (0-indexed) is inside
the subtree rooted at position `i` exactly when some iterated halving of
`j + 1` gives `i + 1`. -/

theorem desc_ge {a b : Nat} (h : ∃ d, b / 2 ^ d = a) : a ≤ b := by
  obtain ⟨d, hd⟩ := h
  rw [← hd]
  exact Nat.div_le_self b (2 ^ d)

theorem desc_child {a v w : Nat} (hw : w / 2 = v) (h : ∃ d, v / 2 ^ d = a) :
    ∃ d, w / 2 ^ d = a := by
  obtain ⟨d, hd⟩ := h
  refine ⟨d + 1, ?_⟩
  have h2 : w / 2 ^ (d + 1) = w / 2 / 2 ^ d := by
    rw [Nat.div_div_eq_div_mul]
    congr 1
    rw [pow_succ]
    ring
  rw [h2, hw, hd]

theorem desc_parent {a w : Nat} (h : ∃ d, w / 2 ^ d = a) (hne : w ≠ a) :
    ∃ d, (w / 2) / 2 ^ d = a := by
  obtain ⟨d, hd⟩ := h
  cases d with
  | zero => exact absurd (by simpa using hd) hne
  | succ e =>
    refine ⟨e, ?_⟩
    rw [Nat.div_div_eq_div_mul, ← hd]
    congr 1
    rw [pow_succ]
    ring

theorem div_pow_succ_le_half (x e : Nat) : x / 2 ^ (e + 1) ≤ x / 2 := by
  have h2 : x / 2 ^ (e + 1) = x / 2 / 2 ^ e := by
    rw [Nat.div_div_eq_div_mul]
    congr 1
    rw [pow_succ]
    ring
  rw [h2]
  exact Nat.div_le_self _ _

theorem not_desc_sibling {w s c : Nat} (hw : 1 ≤ w)
    (h : (c = 2 * w ∧ s = 2 * w + 1) ∨ (c = 2 * w + 1 ∧ s = 2 * w)) :
    ¬ ∃ d, s / 2 ^ d = c := by
  rintro ⟨d, hd⟩
  cases d with
  | zero =>
    simp only [pow_zero, Nat.div_one] at hd
    omega
  | succ e =>
    have hle := div_pow_succ_le_half s e
    rw [hd] at hle
    omega

/-! Unfolding and basic behavior of `heapify`. -/

theorem heapify_eq_self {arr : List α} {n i : Nat} (h : heapifyStep arr n i = i) :
    heapify arr n i = arr := by
  rw [heapify]
  simp [h]

theorem heapify_eq_step {arr : List α} {n i : Nat} (h : heapifyStep arr n i ≠ i) :
    heapify arr n i =
      heapify (swapL arr i (heapifyStep arr n i)) n (heapifyStep arr n i) := by
  rw [heapify]
  simp [h]

theorem heapify_length (arr : List α) (n i : Nat) :
    (heapify arr n i).length = arr.length := by
  induction arr, n, i using heapify.induct with
  | case1 arr n i h => rw [heapify_eq_self h]
  | case2 arr n i h ih => rw [heapify_eq_step h, ih, swapL_length]

theorem desc_trans_child {j s i : Nat} (h1 : ∃ d, j / 2 ^ d = s) (h2 : s / 2 = i) :
    ∃ d, j / 2 ^ d = i := by
  obtain ⟨d, hd⟩ := h1
  refine ⟨d + 1, ?_⟩
  rw [pow_succ, ← Nat.div_div_eq_div_mul, hd, h2]

theorem heapify_getElem?_stable (arr : List α) (n i : Nat) :
    ∀ j, (¬ ∃ d, (j + 1) / 2 ^ d = i + 1) → (heapify arr n i)[j]? = arr[j]? := by
  induction arr, n, i using heapify.induct with
  | case1 arr n i h =>
    intro j hd
    rw [heapify_eq_self h]
  | case2 arr n i h ih =>
    intro j hd
    have hb := heapifyStep_lt h
    have hmem := heapifyStep_mem arr n i
    rw [heapify_eq_step h]
    have hstep2 : (heapifyStep arr n i + 1) / 2 = i + 1 := by
      rcases hmem with hm | hm | hm <;> omega
    have hd2 : ¬ ∃ d, (j + 1) / 2 ^ d = heapifyStep arr n i + 1 := by
      intro hdesc
      exact hd (desc_trans_child hdesc hstep2)
    have hji : j ≠ i := fun he => hd ⟨0, by simp [he]⟩
    have hjs : j ≠ heapifyStep arr n i := fun he => hd2 ⟨0, by simp [he]⟩
    rw [ih j hd2, swapL_getElem?_ne arr hji hjs]

theorem heapify_getD_stable {arr : List α} {n i j : Nat}
    (hd : ¬ ∃ d, (j + 1) / 2 ^ d = i + 1) :
    (heapify arr n i).getD j default = arr.getD j default := by
  rw [List.getD_eq_getElem?_getD, heapify_getElem?_stable arr n i j hd,
    ← List.getD_eq_getElem?_getD]

theorem heapify_getElem?_ge (arr : List α) (n i : Nat) :
    ∀ j, n ≤ j → (heapify arr n i)[j]? = arr[j]? := by
  induction arr, n, i using heapify.induct with
  | case1 arr n i h =>
    intro j hj
    rw [heapify_eq_self h]
  | case2 arr n i h ih =>
    intro j hj
    have hb := heapifyStep_lt h
    rw [heapify_eq_step h, ih j hj, swapL_getElem?_ne arr (by omega) (by omega)]

theorem heapify_getD_root {arr : List α} {n i : Nat} (hn : n ≤ arr.length) :
    (heapify arr n i).getD i default = arr.getD (heapifyStep arr n i) default := by
  by_cases h : heapifyStep arr n i = i
  · rw [heapify_eq_self h, h]
  · have hb := heapifyStep_lt h
    rw [heapify_eq_step h]
    have hfoot : ¬ ∃ d, (i + 1) / 2 ^ d = heapifyStep arr n i + 1 := by
      intro hdesc
      have := desc_ge hdesc
      omega
    rw [heapify_getD_stable hfoot, swapL_getD_fst (by omega) (by omega)]

theorem heapify_getD_le (arr : List α) (n i : Nat) :
    ∀ B : α, n ≤ arr.length → (∀ j, j < n → arr.getD j default ≤ B) →
      ∀ j, j < n → (heapify arr n i).getD j default ≤ B := by
  induction arr, n, i using heapify.induct with
  | case1 arr n i h =>
    intro B hn hB j hj
    rw [heapify_eq_self h]
    exact hB j hj
  | case2 arr n i h ih =>
    intro B hn hB j hj
    have hb := heapifyStep_lt h
    rw [heapify_eq_step h]
    refine ih B (by rw [swapL_length]; exact hn) ?_ j hj
    intro jj hjj
    by_cases hji : jj = i
    · subst hji
      rw [swapL_getD_fst (by omega) (by omega)]
      exact hB _ hb.2
    · by_cases hjs : jj = heapifyStep arr n i
      · subst hjs
        rw [swapL_getD_snd (by omega)]
        exact hB i (by omega)
      · rw [swapL_getD_ne hji hjs]
        exact hB jj hjj

theorem heapify_perm (arr : List α) (n i : Nat) :
    n ≤ arr.length → (heapify arr n i).Perm arr := by
  induction arr, n, i using heapify.induct with
  | case1 arr n i h =>
    intro hn
    rw [heapify_eq_self h]
  | case2 arr n i h ih =>
    intro hn
    have hb := heapifyStep_lt h
    rw [heapify_eq_step h]
    exact (ih (by rw [swapL_length]; exact hn)).trans (swapL_perm (by omega) (by omega))

/-- Sifting down restores the heap: if every index strictly below the heap
prefix root `i` satisfies the local heap condition, after `heapify arr n i`
every index from `i` on does. -/
theorem heapify_localOK (arr : List α) (n i : Nat) :
    n ≤ arr.length → (∀ k, i < k → localOK arr n k) →
      ∀ k, i ≤ k → localOK (heapify arr n i) n k := by
  induction arr, n, i using heapify.induct with
  | case1 arr n i h =>
    intro hn hpre k hk
    rw [heapify_eq_self h]
    rcases Nat.lt_or_ge i k with hik | hik
    · exact hpre k hik
    · have hek : k = i := by omega
      rw [hek]
      unfold heapifyStep at h
      split_ifs at h with h1 h2 h3
      · omega
      · omega
      · omega
      · exact ⟨fun hc => le_of_not_lt fun hl => h1 ⟨hc, hl⟩,
          fun hc => le_of_not_lt fun hl => h3 ⟨hc, hl⟩⟩
  | case2 arr n i h ih =>
    intro hn hpre k hk
    have hb := heapifyStep_lt h
    have hmem := heapifyStep_mem arr n i
    have hsb : heapifyStep arr n i ≤ 2 * i + 2 := by
      rcases hmem with hm | hm | hm <;> omega
    rw [heapify_eq_step h]
    have hpre2 : ∀ k2, heapifyStep arr n i < k2 → localOK (swapL arr i (heapifyStep arr n i)) n k2 := by
      intro k2 hk2
      have horig := hpre k2 (by omega)
      constructor
      · intro hc
        rw [swapL_getD_ne (by omega) (by omega), swapL_getD_ne (by omega) (by omega)]
        exact horig.1 hc
      · intro hc
        rw [swapL_getD_ne (by omega) (by omega), swapL_getD_ne (by omega) (by omega)]
        exact horig.2 hc
    have hA := ih (by rw [swapL_length]; exact hn) hpre2
    rcases Nat.lt_or_ge k (heapifyStep arr n i) with hks | hks
    swap
    · exact hA k hks
    · -- k is i itself or strictly between i and the promoted child
      have hAi : (heapify (swapL arr i (heapifyStep arr n i)) n (heapifyStep arr n i)).getD i default
          = arr.getD (heapifyStep arr n i) default := by
        rw [heapify_getD_stable (by intro hdesc; have := desc_ge hdesc; omega),
          swapL_getD_fst (by omega) (by omega)]
      have hAs : (heapify (swapL arr i (heapifyStep arr n i)) n (heapifyStep arr n i)).getD
            (heapifyStep arr n i) default ≤ arr.getD (heapifyStep arr n i) default := by
        rw [heapify_getD_root (by rw [swapL_length]; exact hn)]
        rcases heapifyStep_mem (swapL arr i (heapifyStep arr n i)) n (heapifyStep arr n i)
          with h2 | h2 | h2
        · rw [h2, swapL_getD_snd (by omega)]
          exact heapifyStep_ge arr n i
        · have hb2 := @heapifyStep_lt α _ _ (swapL arr i (heapifyStep arr n i)) n
            (heapifyStep arr n i) (by rw [h2]; omega)
          rw [h2] at hb2 ⊢
          rw [swapL_getD_ne (by omega) (by omega)]
          exact (hpre (heapifyStep arr n i) (by omega)).1 hb2.2
        · have hb2 := @heapifyStep_lt α _ _ (swapL arr i (heapifyStep arr n i)) n
            (heapifyStep arr n i) (by rw [h2]; omega)
          rw [h2] at hb2 ⊢
          rw [swapL_getD_ne (by omega) (by omega)]
          exact (hpre (heapifyStep arr n i) (by omega)).2 hb2.2
      by_cases hki : k = i
      · rw [hki]
        have hcomp : ∀ c0, (c0 = 2 * i + 1 ∨ c0 = 2 * i + 2) → c0 < n →
            (heapify (swapL arr i (heapifyStep arr n i)) n (heapifyStep arr n i)).getD c0 default
              ≤ arr.getD (heapifyStep arr n i) default := by
          intro c0 hc0 hcn
          by_cases hcs : c0 = heapifyStep arr n i
          · rw [hcs]
            exact hAs
          · have hfoot : ¬ ∃ d, (c0 + 1) / 2 ^ d = heapifyStep arr n i + 1 := by
              refine not_desc_sibling (w := i + 1) (by omega) ?_
              rcases hmem with hm | hm | hm
              · omega
              · rcases hc0 with rfl | rfl
                · omega
                · exact Or.inl ⟨by omega, by omega⟩
              · rcases hc0 with rfl | rfl
                · exact Or.inr ⟨by omega, by omega⟩
                · omega
            rw [heapify_getD_stable hfoot, swapL_getD_ne (by omega) (by omega)]
            refine heapifyStep_max arr n i ?_
            rcases hc0 with rfl | rfl
            · exact Or.inr (Or.inl ⟨rfl, hcn⟩)
            · exact Or.inr (Or.inr ⟨rfl, hcn⟩)
        constructor
        · intro hc
          rw [hAi]
          exact hcomp _ (Or.inl rfl) hc
        · intro hc
          rw [hAi]
          exact hcomp _ (Or.inr rfl) hc
      · -- i < k < heapifyStep arr n i: everything local to k is untouched
        have hik : i < k := by omega
        have hkfoot : ¬ ∃ d, (k + 1) / 2 ^ d = heapifyStep arr n i + 1 := by
          intro hdesc
          have := desc_ge hdesc
          omega
        have hgk : (heapify (swapL arr i (heapifyStep arr n i)) n (heapifyStep arr n i)).getD
            k default = arr.getD k default := by
          rw [heapify_getD_stable hkfoot, swapL_getD_ne (by omega) (by omega)]
        have hchild : ∀ c0, (c0 = 2 * k + 1 ∨ c0 = 2 * k + 2) →
            (heapify (swapL arr i (heapifyStep arr n i)) n (heapifyStep arr n i)).getD
              c0 default = arr.getD c0 default := by
          intro c0 hc0
          have hc0k : (c0 + 1) / 2 = k + 1 := by rcases hc0 with rfl | rfl <;> omega
          have hc0big : 2 * i + 2 < c0 := by rcases hc0 with rfl | rfl <;> omega
          have hcfoot : ¬ ∃ d, (c0 + 1) / 2 ^ d = heapifyStep arr n i + 1 := by
            intro hdesc
            have hne : c0 + 1 ≠ heapifyStep arr n i + 1 := by omega
            have hpar := desc_parent hdesc hne
            rw [hc0k] at hpar
            have := desc_ge hpar
            omega
          rw [heapify_getD_stable hcfoot, swapL_getD_ne (by omega) (by omega)]
        have horig := hpre k (by omega)
        constructor
        · intro hc
          rw [hgk, hchild _ (Or.inl rfl)]
          exact horig.1 hc
        · intro hc
          rw [hgk, hchild _ (Or.inr rfl)]
          exact horig.2 hc

/-- In a max-heap prefix, the root holds a maximal element. -/
theorem heap_root_max {arr : List α} {n : Nat} (h : ∀ k, localOK arr n k) :
    ∀ j, j < n → arr.getD j default ≤ arr.getD 0 default := by
  intro j
  induction j using Nat.strong_induction_on with
  | _ j ih =>
    intro hj
    match j with
    | 0 => exact le_rfl
    | j + 1 =>
      have hchild : j + 1 = 2 * (j / 2) + 1 ∨ j + 1 = 2 * (j / 2) + 2 := by omega
      have hstep : arr.getD (j + 1) default ≤ arr.getD (j / 2) default := by
        rcases hchild with hc | hc
        · have := (h (j / 2)).1 (by omega)
          rw [← hc] at this
          exact this
        · have := (h (j / 2)).2 (by omega)
          rw [← hc] at this
          exact this
      exact le_trans hstep (ih (j / 2) (by omega) (by omega))

/-! The build loop. -/

theorem buildLoop_length (arr : List α) (n : Nat) :
    ∀ j, (buildLoop arr n j).length = arr.length := by
  intro j
  induction j generalizing arr with
  | zero => rfl
  | succ j ih => rw [buildLoop, ih, heapify_length]

theorem buildLoop_perm (arr : List α) (n : Nat) :
    ∀ j, n ≤ arr.length → (buildLoop arr n j).Perm arr := by
  intro j
  induction j generalizing arr with
  | zero => exact fun _ => List.Perm.refl arr
  | succ j ih =>
    intro hn
    rw [buildLoop]
    exact (ih _ (by rw [heapify_length]; exact hn)).trans (heapify_perm arr n j hn)

theorem buildLoop_localOK (arr : List α) (n : Nat) :
    ∀ j, n ≤ arr.length → (∀ k, j ≤ k → localOK arr n k) →
      ∀ k, localOK (buildLoop arr n j) n k := by
  intro j
  induction j generalizing arr with
  | zero =>
    intro hn h k
    exact h k (Nat.zero_le k)
  | succ j ih =>
    intro hn h k
    rw [buildLoop]
    refine ih _ (by rw [heapify_length]; exact hn) ?_ k
    exact heapify_localOK arr n j hn fun k2 hk2 => h k2 (by omega)

/-! The extraction loop. -/

theorem heapify_drop {arr : List α} {n i : Nat} :
    (heapify arr n i).drop n = arr.drop n := by
  apply List.ext_getElem?
  intro j
  rw [List.getElem?_drop, List.getElem?_drop]
  exact heapify_getElem?_ge arr n i (n + j) (by omega)

theorem swapL_drop_cons {arr : List α} {i : Nat} (h : i + 1 < arr.length) :
    (swapL arr 0 (i + 1)).drop (i + 1) = arr.getD 0 default :: arr.drop (i + 2) := by
  apply List.ext_getElem?
  intro j
  rw [List.getElem?_drop]
  cases j with
  | zero =>
    rw [swapL_getElem?_snd (by omega)]
    simp
  | succ j =>
    rw [swapL_getElem?_ne arr (by omega) (by omega), List.getElem?_cons_succ,
      List.getElem?_drop]
    congr 1
    omega

theorem mem_drop_getD {arr : List α} {m : Nat} {y : α} (h : y ∈ arr.drop m) :
    ∃ k, m ≤ k ∧ k < arr.length ∧ arr.getD k default = y := by
  obtain ⟨j, hj⟩ := List.mem_iff_getElem?.mp h
  rw [List.getElem?_drop] at hj
  have hlt : m + j < arr.length := by
    by_contra hc
    rw [List.getElem?_eq_none (by omega)] at hj
    exact Option.noConfusion hj
  refine ⟨m + j, by omega, hlt, ?_⟩
  rw [List.getD_eq_getElem?_getD, hj]
  rfl

theorem extractLoop_perm : ∀ (i : Nat) (arr : List α), i < arr.length →
    (extractLoop arr i).Perm arr := by
  intro i
  induction i with
  | zero => exact fun arr _ => List.Perm.refl arr
  | succ i ih =>
    intro arr hlen
    rw [extractLoop]
    have hswl : (swapL arr 0 (i + 1)).length = arr.length := swapL_length arr 0 (i + 1)
    refine ((ih _ (by rw [heapify_length, hswl]; omega)).trans ?_).trans
      (@swapL_perm α _ _ arr 0 (i + 1) (by omega) (by omega))
    exact heapify_perm _ (i + 1) 0 (by rw [hswl]; omega)

theorem extractLoop_sorted : ∀ (i : Nat) (arr : List α), i < arr.length →
    (∀ k, localOK arr (i + 1) k) →
    (arr.drop (i + 1)).Sorted (· ≤ ·) →
    (∀ j k, j ≤ i → i < k → k < arr.length → arr.getD j default ≤ arr.getD k default) →
    (extractLoop arr i).Sorted (· ≤ ·) := by
  intro i
  induction i with
  | zero =>
    intro arr hlen hheap hsorted hbound
    cases arr with
    | nil => simp at hlen
    | cons a tl =>
      show (a :: tl).Sorted (· ≤ ·)
      rw [List.Sorted, List.pairwise_cons]
      refine ⟨fun b hb => ?_, hsorted⟩
      obtain ⟨k, hk1, hk2, hk3⟩ := @mem_drop_getD α _ _ (a :: tl) 1 b hb
      rw [← hk3]
      exact hbound 0 k (le_rfl) (by omega) hk2
  | succ i ih =>
    intro arr hlen hheap hsorted hbound
    rw [extractLoop]
    have hilen : i + 1 < arr.length := hlen
    have hswl : (swapL arr 0 (i + 1)).length = arr.length := swapL_length arr 0 (i + 1)
    have hroot : ∀ jj, jj < i + 2 → arr.getD jj default ≤ arr.getD 0 default :=
      heap_root_max hheap
    have hswb : ∀ jj, jj < i + 1 →
        (swapL arr 0 (i + 1)).getD jj default ≤ arr.getD 0 default := by
      intro jj hjj
      by_cases hj0 : jj = 0
      · rw [hj0, swapL_getD_fst (by omega) (by omega)]
        exact hroot (i + 1) (by omega)
      · rw [swapL_getD_ne hj0 (by omega)]
        exact hroot jj (by omega)
    refine ih _ (by rw [heapify_length, hswl]; omega) ?_ ?_ ?_
    · -- the heap condition is restored on the shortened prefix
      refine fun k => heapify_localOK _ (i + 1) 0 (by omega) ?_ k (Nat.zero_le k)
      intro k2 hk2
      have horig := hheap k2
      constructor
      · intro hc
        rw [swapL_getD_ne (by omega) (by omega), swapL_getD_ne (by omega) (by omega)]
        exact horig.1 (by omega)
      · intro hc
        rw [swapL_getD_ne (by omega) (by omega), swapL_getD_ne (by omega) (by omega)]
        exact horig.2 (by omega)
    · -- the sorted suffix grows by the extracted maximum
      rw [heapify_drop, swapL_drop_cons hilen, List.Sorted, List.pairwise_cons]
      refine ⟨fun b hb => ?_, hsorted⟩
      obtain ⟨k, hk1, hk2, hk3⟩ := mem_drop_getD hb
      rw [← hk3]
      exact hbound 0 k (by omega) (by omega) hk2
    · -- every element left in the heap is at most every extracted element
      intro j k hj hk hklen
      rw [heapify_length, hswl] at hklen
      have hAj : (heapify (swapL arr 0 (i + 1)) (i + 1) 0).getD j default
          ≤ arr.getD 0 default :=
        heapify_getD_le _ (i + 1) 0 (arr.getD 0 default) (by omega) hswb j (by omega)
      have hAk : arr.getD 0 default
          ≤ (heapify (swapL arr 0 (i + 1)) (i + 1) 0).getD k default := by
        have hstable : (heapify (swapL arr 0 (i + 1)) (i + 1) 0).getD k default
            = (swapL arr 0 (i + 1)).getD k default := by
          rw [List.getD_eq_getElem?_getD,
            heapify_getElem?_ge _ (i + 1) 0 k (by omega), ← List.getD_eq_getElem?_getD]
        by_cases hk1 : k = i + 1
        · rw [hstable, hk1, swapL_getD_snd (by omega)]
        · rw [hstable, swapL_getD_ne (by omega) (by omega)]
          exact hbound 0 k (by omega) (by omega) (by omega)
      exact le_trans hAj hAk

/-- C10: for every list of comparable elements, `heap_sort` returns the list
whose final contents are a permutation of the original contents arranged in
non-decreasing order.  The Python function mutates `arr` in place and returns
it; the embedding threads that same array state through both loops and
returns the final state. -/
theorem heap_sort_correct (l : List α) :
    (heap_sort l).Perm l ∧ (heap_sort l).Sorted (· ≤ ·) := by
  by_cases hl : l.length = 0
  · have hnil : l = [] := List.length_eq_zero.mp hl
    subst hnil
    have hz : heap_sort ([] : List α) = [] := by
      simp [heap_sort, buildLoop, extractLoop]
    rw [hz]
    exact ⟨List.Perm.refl [], List.sorted_nil⟩
  · unfold heap_sort
    have hbl : (buildLoop l l.length (l.length / 2)).length = l.length :=
      buildLoop_length l l.length (l.length / 2)
    have hheap : ∀ k, localOK (buildLoop l l.length (l.length / 2)) l.length k := by
      refine buildLoop_localOK l l.length (l.length / 2) le_rfl ?_
      intro k hk
      exact ⟨fun hc => absurd hc (by omega), fun hc => absurd hc (by omega)⟩
    constructor
    · exact (extractLoop_perm (l.length - 1) _ (by rw [hbl]; omega)).trans
        (buildLoop_perm l l.length (l.length / 2) le_rfl)
    · have h1 : l.length - 1 + 1 = l.length := by omega
      refine extractLoop_sorted (l.length - 1) _ (by rw [hbl]; omega) ?_ ?_ ?_
      · rw [h1]
        exact hheap
      · rw [h1]
        have hdrop : (buildLoop l l.length (l.length / 2)).drop l.length = [] :=
          List.drop_eq_nil_of_le (le_of_eq hbl)
        rw [hdrop]
        exact List.sorted_nil
      · intro j k hj hk hklen
        rw [hbl] at hklen
        exact absurd hklen (by omega)

end HeapSort
